import Mathlib

/-!
Verification of the tweetboat bounded reply cache (src/cache.rs), the repost
counter (src/repost.rs) and the link rewriting passes (src/pass.rs,
src/fix.rs), as a shallow embedding in Lean.

Message IDs (Discord snowflakes, nonzero u64) are embedded as `Nat`: the code
only compares them, so wraparound never matters.  The `VecDeque` backing store
is embedded as a `List` in logical (front to back) order together with the
fixed construction capacity; the code keeps `len ≤ capacity` so the deque
never reallocates and `self.0.capacity()` stays the construction capacity.
A statement `self.0[idx] = ...` on an out-of-bounds index panics in Rust;
the embedding of `insert` returns `Option`, with `none` modelling the panic.
-/

namespace Tweetboat

/-- Entry state of the cache, from `enum CacheEntry` in src/cache.rs.  The
value type is a parameter: the reply cache stores reply message IDs, the seen
cache stores payload strings. -/
inductive CacheEntry (V : Type) where
  | Pending : CacheEntry V
  | Filled : V → CacheEntry V
deriving DecidableEq, Repr

/-- Reservation token, from `struct InsertToken` in src/cache.rs: the source
key and the speculative index at issuance time. -/
structure InsertToken where
  source : Nat
  idx : Nat
deriving DecidableEq, Repr

/-- The cache, from `struct ReplyCache(VecDeque<(MessageId, CacheEntry)>)`:
the backing deque as a list plus the construction capacity. -/
structure ReplyCache (V : Type) where
  cap : Nat
  entries : List (Nat × CacheEntry V)
deriving DecidableEq, Repr

/-- The loop of the standard library `binary_search_by_key` used by
`ReplyCache::search`: classic two-pointer binary search, `ok` when the probed
key matches, otherwise `error` with the insertion point. -/
def bsLoop (ks : List Nat) (key : Nat) (left right : Nat) : Except Nat Nat :=
  if _h : left < right then
    let mid := left + (right - left) / 2
    let k := ks.getD mid 0
    if k < key then bsLoop ks key (mid + 1) right
    else if key < k then bsLoop ks key left mid
    else Except.ok mid
  else Except.error left
termination_by right - left
decreasing_by
  all_goals omega

namespace ReplyCache

variable {V : Type}

/-- Rust `ReplyCache::with_capacity`. -/
def with_capacity (cap : Nat) : ReplyCache V := ⟨cap, []⟩

/-- The key column of the store, the view `binary_search_by_key` searches. -/
def keys (c : ReplyCache V) : List Nat := c.entries.map Prod.fst

/-- Rust `ReplyCache::search`: binary search of the deque by the source key. -/
def search (c : ReplyCache V) (source : Nat) : Except Nat Nat :=
  bsLoop (keys c) source 0 (keys c).length

/-- The eviction step at the top of `ReplyCache::file_pending`:
`if self.0.len() == self.0.capacity() { self.0.pop_front(); }`. -/
def evict_if_full (c : ReplyCache V) : ReplyCache V :=
  if c.entries.length == c.cap then ⟨c.cap, c.entries.tail⟩ else c

/-- The slow path of `ReplyCache::file_pending`: binary search, insert into an
open slot (`Err`) or fail (`Ok`, the slot is taken). -/
def file_pending_slow (c : ReplyCache V) (source : Nat) :
    Option InsertToken × ReplyCache V :=
  match search c source with
  | Except.error idx =>
      (some ⟨source, idx⟩,
        ⟨c.cap, c.entries.insertIdx idx (source, CacheEntry.Pending)⟩)
  | Except.ok _ => (none, c)

/-- Rust `ReplyCache::file_pending`: evict if at capacity, then try the fast
append path (`back_source <= source`), else binary search for a slot. -/
def file_pending (c : ReplyCache V) (source : Nat) :
    Option InsertToken × ReplyCache V :=
  let c1 := evict_if_full c
  match c1.entries.getLast? with
  | some back =>
      if back.1 ≤ source then
        (some ⟨source, c1.entries.length⟩,
          ⟨c1.cap, c1.entries ++ [(source, CacheEntry.Pending)]⟩)
      else file_pending_slow c1 source
  | none => file_pending_slow c1 source

/-- The fallthrough of `ReplyCache::insert`: collapse the search result with
`map_or_else` and write `self.0[idx]`; `none` models the out-of-bounds panic
when the collapsed index is the length. -/
def insert_fallthrough (c : ReplyCache V) (t : InsertToken) (reply : V) :
    Option (ReplyCache V) :=
  let idx := match search c t.source with
    | Except.ok i => i
    | Except.error i => i
  if idx < c.entries.length then
    some ⟨c.cap, c.entries.set idx (t.source, CacheEntry.Filled reply)⟩
  else none

/-- Rust `ReplyCache::insert`: redeem a token; fill in place if the recorded index
still holds the key of the token, else fall through to a search. -/
def insert (c : ReplyCache V) (t : InsertToken) (reply : V) :
    Option (ReplyCache V) :=
  match c.entries[t.idx]? with
  | some kv =>
      if kv.1 = t.source then
        some ⟨c.cap, c.entries.set t.idx (t.source, CacheEntry.Filled reply)⟩
      else insert_fallthrough c t reply
  | none => insert_fallthrough c t reply

/-- Rust `ReplyCache::get_entry`: read-only binary search. -/
def get_entry (c : ReplyCache V) (source : Nat) : Option (CacheEntry V) :=
  match search c source with
  | Except.ok idx => (c.entries[idx]?).map Prod.snd
  | Except.error _ => none

/-- Rust `ReplyCache::take_entry`: return the entry and reset it to `Pending` in
place. -/
def take_entry (c : ReplyCache V) (source : Nat) :
    Option (CacheEntry V) × ReplyCache V :=
  match search c source with
  | Except.ok idx =>
      ((c.entries[idx]?).map Prod.snd,
        ⟨c.cap, c.entries.set idx (source, CacheEntry.Pending)⟩)
  | Except.error _ => (none, c)

end ReplyCache

/-- Modelled from the spec: the seen-payload cache instance.  `SeenCache` is
imported by src/main.rs from the cache module but its definition is not among
the provided sources; per spec section 4.1 it is the same ordered bounded
cache parameterized to map a message ID to an observed payload string. -/
abbrev SeenCache := ReplyCache String

/-- Modelled from the spec: `search_by_value`, absent from the provided
sources (src/repost.rs calls it on the seen cache).  Per spec section 4.1 it
is a linear scan of all `Filled` entries comparing the stored value; the
caller in src/repost.rs takes `.len()` of the result, so the model returns
the list of matching filled values. -/
def search_by_value (c : SeenCache) (needle : String) : List String :=
  c.entries.filterMap (fun e =>
    match e.2 with
    | CacheEntry.Filled v => if v == needle then some v else none
    | CacheEntry.Pending => none)

/-- Function `check_repost` from src/repost.rs: the number of times a url has been
seen, the length of the reverse search result. -/
def check_repost (c : SeenCache) (embed_url : String) : Nat :=
  (search_by_value c embed_url).length

/-- Enum `SpoilerTags` from src/pass.rs. -/
inductive SpoilerTags where
  | None : SpoilerTags
  | Spoiler : SpoilerTags
  | Mismatched : SpoilerTags
deriving DecidableEq, Repr

/-- Constant `REPLACEMENT_STEM` from src/fix.rs. -/
def REPLACEMENT_STEM : String := "https://vxtwitter.com"

/-- Function `tweet_paths` from src/fix.rs.  The body of the source function is
literally `[].into_iter()`: it ignores both arguments and yields nothing.
The `Regex` argument is embedded opaquely as its pattern string. -/
def tweet_paths (content : String) (link_regex : String) :
    List (String × SpoilerTags) :=
  []

/-- Function `fix` from src/fix.rs: enumerate the extracted tweet paths, fold them
into masked links (spoilered links are wrapped in spoiler bars), and return
`none` when the accumulated output is empty. -/
def fix (content : String) (link_regex : String) : Option String :=
  let out := ((tweet_paths content link_regex).enum).foldl
    (fun out p =>
      let link :=
        "[`Tweet #" ++ toString (p.1 + 1) ++ "`](" ++ REPLACEMENT_STEM
          ++ p.2.1 ++ ")"
      if p.2.2 ≠ SpoilerTags.None then out ++ "||" ++ link ++ "|| "
      else out ++ link)
    ""
  if out.isEmpty then none else some out

/-- The key column of the store is ascending, duplicates allowed. -/
def SortedKeys {V : Type} (c : ReplyCache V) : Prop :=
  (ReplyCache.keys c).Pairwise (· ≤ ·)

/-- The order invariant of the spec: the key column is strictly ascending. -/
def StrictSortedKeys {V : Type} (c : ReplyCache V) : Prop :=
  (ReplyCache.keys c).Pairwise (· < ·)

/-- Cache states reachable from construction by any interleaving of the three
mutating operations with arbitrary arguments; a completion steps only when
`insert` succeeds (an out-of-bounds panic has no successor state). -/
inductive Reach {V : Type} : ReplyCache V → Prop where
  | init (cap : Nat) : Reach (ReplyCache.with_capacity cap)
  | file (c : ReplyCache V) (source : Nat) :
      Reach c → Reach (ReplyCache.file_pending c source).2
  | complete (c c2 : ReplyCache V) (t : InsertToken) (reply : V) :
      Reach c → ReplyCache.insert c t reply = some c2 → Reach c2
  | reopen (c : ReplyCache V) (source : Nat) :
      Reach c → Reach (ReplyCache.take_entry c source).2

/-- Bridge from `getD` to `getElem` on an in-bounds index. -/
theorem getD_eq_getElem_of_lt {l : List Nat} {n : Nat} (h : n < l.length) :
    l.getD n 0 = l[n] := by
  simp [List.getD_eq_getElem?_getD, List.getElem?_eq_getElem h]

/-- In an ascending key column, `getD` is monotone over in-bounds indices. -/
theorem sorted_getD_mono {ks : List Nat} (hs : ks.Pairwise (· ≤ ·))
    {a b : Nat} (hab : a ≤ b) (hb : b < ks.length) :
    ks.getD a 0 ≤ ks.getD b 0 := by
  rcases Nat.eq_or_lt_of_le hab with rfl | hab
  · exact Nat.le_refl _
  · have h := List.pairwise_iff_getElem.mp hs a b (Nat.lt_trans hab hb) hb hab
    rw [getD_eq_getElem_of_lt (Nat.lt_trans hab hb), getD_eq_getElem_of_lt hb]
    exact h

/-- In a strictly ascending key column, `getD` is strictly monotone. -/
theorem strict_sorted_getD_mono {ks : List Nat} (hs : ks.Pairwise (· < ·))
    {a b : Nat} (hab : a < b) (hb : b < ks.length) :
    ks.getD a 0 < ks.getD b 0 := by
  have h := List.pairwise_iff_getElem.mp hs a b (Nat.lt_trans hab hb) hb hab
  rw [getD_eq_getElem_of_lt (Nat.lt_trans hab hb), getD_eq_getElem_of_lt hb]
  exact h

/-- A successful binary search probes a matching in-bounds key; no sortedness
is needed. -/
theorem bsLoop_ok_spec (ks : List Nat) (key : Nat) :
    ∀ (n left right i : Nat), right - left ≤ n → right ≤ ks.length →
      bsLoop ks key left right = Except.ok i →
      i < ks.length ∧ ks.getD i 0 = key ∧ left ≤ i ∧ i < right := by
  intro n
  induction n with
  | zero =>
      intro left right i hn hr h
      rw [bsLoop.eq_def, dif_neg (by omega)] at h
      cases h
  | succ n ih =>
      intro left right i hn hr h
      rw [bsLoop.eq_def] at h
      by_cases hlr : left < right
      · rw [dif_pos hlr] at h
        have hmid1 : left ≤ left + (right - left) / 2 := by omega
        have hmid2 : left + (right - left) / 2 < right := by omega
        by_cases h1 : ks.getD (left + (right - left) / 2) 0 < key
        · rw [if_pos h1] at h
          obtain ⟨ha, hb, hc, hd⟩ := ih _ _ i (by omega) hr h
          exact ⟨ha, hb, by omega, hd⟩
        · rw [if_neg h1] at h
          by_cases h2 : key < ks.getD (left + (right - left) / 2) 0
          · rw [if_pos h2] at h
            obtain ⟨ha, hb, hc, hd⟩ := ih _ _ i (by omega) (by omega) h
            exact ⟨ha, hb, hc, by omega⟩
          · rw [if_neg h2] at h
            cases h
            exact ⟨by omega, by omega, hmid1, hmid2⟩
      · rw [dif_neg hlr] at h
        cases h

/-- On an ascending key column, a failed binary search returns the insertion
point: everything before it is strictly below the key, everything from it on
is strictly above. -/
theorem bsLoop_error_spec (ks : List Nat) (key : Nat)
    (hs : ks.Pairwise (· ≤ ·)) :
    ∀ (n left right i : Nat), right - left ≤ n → right ≤ ks.length →
      left ≤ right →
      (∀ j, j < left → ks.getD j 0 < key) →
      (∀ j, right ≤ j → j < ks.length → key < ks.getD j 0) →
      bsLoop ks key left right = Except.error i →
      i ≤ ks.length ∧ (∀ j, j < i → ks.getD j 0 < key) ∧
        (∀ j, i ≤ j → j < ks.length → key < ks.getD j 0) := by
  intro n
  induction n with
  | zero =>
      intro left right i hn hr hlr hlo hhi h
      rw [bsLoop.eq_def, dif_neg (by omega)] at h
      cases h
      exact ⟨by omega, hlo, fun j hj hj2 => hhi j (by omega) hj2⟩
  | succ n ih =>
      intro left right i hn hr hlr hlo hhi h
      rw [bsLoop.eq_def] at h
      by_cases hlr2 : left < right
      · rw [dif_pos hlr2] at h
        have hmid1 : left ≤ left + (right - left) / 2 := by omega
        have hmid2 : left + (right - left) / 2 < right := by omega
        by_cases h1 : ks.getD (left + (right - left) / 2) 0 < key
        · rw [if_pos h1] at h
          refine ih _ _ i (by omega) hr (by omega) ?_ hhi h
          intro j hj
          rcases Nat.lt_or_ge j (left + (right - left) / 2) with hj2 | hj2
          · exact Nat.lt_of_le_of_lt
              (sorted_getD_mono hs (Nat.le_of_lt hj2) (by omega)) h1
          · have : j = left + (right - left) / 2 := by omega
            rw [this]
            exact h1
        · rw [if_neg h1] at h
          by_cases h2 : key < ks.getD (left + (right - left) / 2) 0
          · rw [if_pos h2] at h
            refine ih _ _ i (by omega) (by omega) (by omega) hlo ?_ h
            intro j hj hj2
            exact Nat.lt_of_lt_of_le h2 (sorted_getD_mono hs hj hj2)
          · rw [if_neg h2] at h
            cases h
      · rw [dif_neg hlr2] at h
        cases h
        exact ⟨by omega, hlo, fun j hj hj2 => hhi j (by omega) hj2⟩

/-- A key present in an ascending key column is found by the binary search. -/
theorem bsLoop_found (ks : List Nat) (key : Nat)
    (hs : ks.Pairwise (· ≤ ·)) (hmem : key ∈ ks) :
    ∃ i, bsLoop ks key 0 ks.length = Except.ok i := by
  cases hres : bsLoop ks key 0 ks.length with
  | ok i => exact ⟨i, rfl⟩
  | error i =>
      obtain ⟨-, h1, h2⟩ :=
        bsLoop_error_spec ks key hs ks.length 0 ks.length i (by omega)
          (Nat.le_refl _) (by omega) (by omega) (by omega) hres
      obtain ⟨j, hj, hjeq⟩ := List.mem_iff_getElem.mp hmem
      have hgd : ks.getD j 0 = key := by
        rw [getD_eq_getElem_of_lt hj, hjeq]
      rcases Nat.lt_or_ge j i with hji | hji
      · have := h1 j hji
        omega
      · have := h2 j hji hj
        omega

/-- A key absent from the key column is never found, sorted or not. -/
theorem bsLoop_not_mem (ks : List Nat) (key : Nat) (hmem : key ∉ ks) :
    ∃ i, bsLoop ks key 0 ks.length = Except.error i := by
  cases hres : bsLoop ks key 0 ks.length with
  | error i => exact ⟨i, rfl⟩
  | ok i =>
      obtain ⟨hi, hgd, -, -⟩ :=
        bsLoop_ok_spec ks key ks.length 0 ks.length i (by omega)
          (Nat.le_refl _) hres
      refine absurd ?_ hmem
      rw [← hgd, getD_eq_getElem_of_lt hi]
      exact List.getElem_mem hi

/-- Decomposition of `insertIdx` into take, the new element, and drop. -/
theorem insertIdx_eq_take_cons_drop {α : Type} (x : α) :
    ∀ (i : Nat) (l : List α), i ≤ l.length →
      l.insertIdx i x = l.take i ++ x :: l.drop i := by
  intro i
  induction i with
  | zero => intro l _; simp
  | succ i ih =>
      intro l hl
      cases l with
      | nil => simp at hl
      | cons a l =>
          simp only [List.insertIdx_succ_cons, List.take_succ_cons,
            List.drop_succ_cons, List.cons_append, List.cons.injEq, true_and]
          exact ih l (by simpa using hl)

/-- Mapping commutes with `insertIdx`. -/
theorem map_insertIdx {α β : Type} (f : α → β) (x : α) :
    ∀ (i : Nat) (l : List α),
      (l.insertIdx i x).map f = (l.map f).insertIdx i (f x) := by
  intro i
  induction i with
  | zero => intro l; simp
  | succ i ih =>
      intro l
      cases l with
      | nil => simp [List.insertIdx_succ_nil]
      | cons a l => simp [List.insertIdx_succ_cons, ih]

/-- Setting an index to the value it already holds is the identity. -/
theorem set_getD_self {α : Type} (d : α) :
    ∀ (l : List α) (i : Nat), i < l.length → l.set i (l.getD i d) = l := by
  intro l
  induction l with
  | nil => intro i h; simp at h
  | cons a l ih =>
      intro i h
      cases i with
      | zero => simp
      | succ i =>
          simp only [List.getD_cons_succ, List.set_cons_succ]
          rw [ih i (by simpa using h)]

/-- Everything in `take i` is below `x` when every index below `i` is. -/
theorem take_lt_of_getD_lt {l : List Nat} {i x : Nat}
    (h : ∀ j, j < i → j < l.length → l.getD j 0 < x) :
    ∀ a ∈ l.take i, a < x := by
  intro a ha
  obtain ⟨j, hj, hjeq⟩ := List.mem_iff_getElem.mp ha
  have hjlen : j < l.length := by
    have := hj
    simp only [List.length_take] at this
    omega
  have hji : j < i := by
    have := hj
    simp only [List.length_take] at this
    omega
  rw [List.getElem_take] at hjeq
  rw [← hjeq, ← getD_eq_getElem_of_lt hjlen]
  exact h j hji hjlen

/-- Everything in `drop i` is above `x` when every index from `i` on is. -/
theorem drop_gt_of_getD_gt {l : List Nat} {i x : Nat}
    (h : ∀ j, i ≤ j → j < l.length → x < l.getD j 0) :
    ∀ a ∈ l.drop i, x < a := by
  intro a ha
  obtain ⟨j, hj, hjeq⟩ := List.mem_iff_getElem.mp ha
  have hjlen : i + j < l.length := by
    have := hj
    simp only [List.length_drop] at this
    omega
  rw [List.getElem_drop] at hjeq
  rw [← hjeq, ← getD_eq_getElem_of_lt hjlen]
  exact h (i + j) (by omega) hjlen

/-- Inserting at the insertion point of a binary-search miss keeps the key
column ascending. -/
theorem pairwise_le_insertIdx {l : List Nat} {i x : Nat}
    (hs : l.Pairwise (· ≤ ·)) (hi : i ≤ l.length)
    (hlo : ∀ j, j < i → j < l.length → l.getD j 0 < x)
    (hhi : ∀ j, i ≤ j → j < l.length → x < l.getD j 0) :
    (l.insertIdx i x).Pairwise (· ≤ ·) := by
  rw [insertIdx_eq_take_cons_drop x i l hi]
  rw [List.pairwise_append]
  refine ⟨hs.sublist (List.take_sublist i l), ?_, ?_⟩
  · rw [List.pairwise_cons]
    exact ⟨fun b hb => Nat.le_of_lt (drop_gt_of_getD_gt hhi b hb),
      hs.sublist (List.drop_sublist i l)⟩
  · intro a ha b hb
    have hax : a < x := take_lt_of_getD_lt hlo a ha
    rcases List.mem_cons.mp hb with rfl | hb2
    · exact Nat.le_of_lt hax
    · exact Nat.le_of_lt (Nat.lt_trans hax (drop_gt_of_getD_gt hhi b hb2))

/-- Overwriting the entry at the insertion point of a binary-search miss
keeps the key column ascending. -/
theorem pairwise_le_set {l : List Nat} {i x : Nat}
    (hs : l.Pairwise (· ≤ ·)) (hi : i < l.length)
    (hlo : ∀ j, j < i → j < l.length → l.getD j 0 < x)
    (hhi : ∀ j, i ≤ j → j < l.length → x < l.getD j 0) :
    (l.set i x).Pairwise (· ≤ ·) := by
  rw [List.set_eq_take_append_cons_drop, if_pos hi]
  rw [List.pairwise_append]
  refine ⟨hs.sublist (List.take_sublist i l), ?_, ?_⟩
  · rw [List.pairwise_cons]
    refine ⟨fun b hb => ?_, hs.sublist (List.drop_sublist (i + 1) l)⟩
    exact Nat.le_of_lt
      (drop_gt_of_getD_gt (fun j hj hj2 => hhi j (by omega) hj2) b hb)
  · intro a ha b hb
    have hax : a < x := take_lt_of_getD_lt hlo a ha
    rcases List.mem_cons.mp hb with rfl | hb2
    · exact Nat.le_of_lt hax
    · exact Nat.le_of_lt (Nat.lt_trans hax
        (drop_gt_of_getD_gt (fun j hj hj2 => hhi j (by omega) hj2) b hb2))

/-- In an ascending key column every element is at most the last one. -/
theorem sorted_le_getLast {ks : List Nat} (hs : ks.Pairwise (· ≤ ·))
    {b : Nat} (hb : ks.getLast? = some b) : ∀ a ∈ ks, a ≤ b := by
  intro a ha
  obtain ⟨j, hj, hjeq⟩ := List.mem_iff_getElem.mp ha
  rw [List.getLast?_eq_getElem?] at hb
  obtain ⟨hlen, hbeq⟩ := List.getElem?_eq_some_iff.mp hb
  rw [← hjeq, ← hbeq, ← getD_eq_getElem_of_lt hj,
    ← getD_eq_getElem_of_lt hlen]
  exact sorted_getD_mono hs (by omega) hlen

/-- The key column has the same length as the store. -/
theorem keys_length {V : Type} (c : ReplyCache V) :
    (ReplyCache.keys c).length = c.entries.length := by
  simp [ReplyCache.keys]

/-- A successful `search` returns an in-bounds index holding the key. -/
theorem search_ok_spec {V : Type} {c : ReplyCache V} {source i : Nat}
    (h : ReplyCache.search c source = Except.ok i) :
    i < c.entries.length ∧ (ReplyCache.keys c).getD i 0 = source := by
  obtain ⟨h1, h2, -, -⟩ :=
    bsLoop_ok_spec (ReplyCache.keys c) source (ReplyCache.keys c).length 0
      (ReplyCache.keys c).length i (by omega) (Nat.le_refl _) h
  rw [keys_length] at h1
  exact ⟨h1, h2⟩

/-- On a sorted store, a failed `search` returns the insertion point. -/
theorem search_error_spec {V : Type} {c : ReplyCache V} {source i : Nat}
    (hs : SortedKeys c) (h : ReplyCache.search c source = Except.error i) :
    i ≤ c.entries.length ∧
      (∀ j, j < i → (ReplyCache.keys c).getD j 0 < source) ∧
      (∀ j, i ≤ j → j < c.entries.length →
        source < (ReplyCache.keys c).getD j 0) := by
  obtain ⟨h1, h2, h3⟩ :=
    bsLoop_error_spec (ReplyCache.keys c) source hs (ReplyCache.keys c).length
      0 (ReplyCache.keys c).length i (by omega) (Nat.le_refl _) (by omega)
      (by omega) (by omega) h
  rw [keys_length] at h1
  refine ⟨h1, h2, fun j hj hj2 => h3 j hj ?_⟩
  rw [keys_length]
  exact hj2

/-- A key absent from the store is never found by `search`. -/
theorem search_not_mem {V : Type} {c : ReplyCache V} {source : Nat}
    (hmem : source ∉ ReplyCache.keys c) :
    ∃ i, ReplyCache.search c source = Except.error i :=
  bsLoop_not_mem (ReplyCache.keys c) source hmem

/-- A key present in a sorted store is found by `search`. -/
theorem search_found {V : Type} {c : ReplyCache V} {source : Nat}
    (hs : SortedKeys c) (hmem : source ∈ ReplyCache.keys c) :
    ∃ i, ReplyCache.search c source = Except.ok i :=
  bsLoop_found (ReplyCache.keys c) source hs hmem

/-- A failed `search` returns an index at most the store length, with no
sortedness assumption (needed for the capacity invariant). -/
theorem bsLoop_error_le (ks : List Nat) (key : Nat) :
    ∀ (n left right i : Nat), right - left ≤ n → left ≤ right →
      bsLoop ks key left right = Except.error i → i ≤ right := by
  intro n
  induction n with
  | zero =>
      intro left right i hn hlr h
      rw [bsLoop.eq_def, dif_neg (by omega)] at h
      cases h
      omega
  | succ n ih =>
      intro left right i hn hlr h
      rw [bsLoop.eq_def] at h
      by_cases hlr2 : left < right
      · rw [dif_pos hlr2] at h
        have hmid1 : left ≤ left + (right - left) / 2 := by omega
        have hmid2 : left + (right - left) / 2 < right := by omega
        by_cases h1 : ks.getD (left + (right - left) / 2) 0 < key
        · rw [if_pos h1] at h
          exact ih _ _ i (by omega) (by omega) h
        · rw [if_neg h1] at h
          by_cases h2 : key < ks.getD (left + (right - left) / 2) 0
          · rw [if_pos h2] at h
            exact Nat.le_trans (ih _ _ i (by omega) (by omega) h) (by omega)
          · rw [if_neg h2] at h
            cases h
      · rw [dif_neg hlr2] at h
        cases h
        omega

/-- A failed `search` returns an index at most the store length. -/
theorem search_error_le {V : Type} {c : ReplyCache V} {source i : Nat}
    (h : ReplyCache.search c source = Except.error i) :
    i ≤ c.entries.length := by
  have := bsLoop_error_le (ReplyCache.keys c) source (ReplyCache.keys c).length
    0 (ReplyCache.keys c).length i (by omega) (by omega) h
  rw [keys_length] at this
  exact this

/-- Eviction keeps the key column ascending. -/
theorem sortedKeys_evict {V : Type} {c : ReplyCache V} (hs : SortedKeys c) :
    SortedKeys (ReplyCache.evict_if_full c) := by
  unfold ReplyCache.evict_if_full
  split
  · unfold SortedKeys ReplyCache.keys at *
    simp only [List.map_tail]
    exact hs.sublist (List.tail_sublist _)
  · exact hs

/-- The slow path of a reservation keeps the key column ascending. -/
theorem sortedKeys_file_pending_slow {V : Type} {c : ReplyCache V}
    {source : Nat} (hs : SortedKeys c) :
    SortedKeys (ReplyCache.file_pending_slow c source).2 := by
  unfold ReplyCache.file_pending_slow
  cases hres : ReplyCache.search c source with
  | ok i => exact hs
  | error i =>
      obtain ⟨hi, hlo, hhi⟩ := search_error_spec hs hres
      unfold SortedKeys ReplyCache.keys at *
      simp only [map_insertIdx]
      refine pairwise_le_insertIdx hs ?_ ?_ ?_
      · simpa using hi
      · intro j hj hj2
        exact hlo j hj
      · intro j hj hj2
        refine hhi j hj ?_
        simpa using hj2

/-- A reservation keeps the key column ascending. -/
theorem sortedKeys_file_pending {V : Type} {c : ReplyCache V} {source : Nat}
    (hs : SortedKeys c) :
    SortedKeys (ReplyCache.file_pending c source).2 := by
  have hev : SortedKeys (ReplyCache.evict_if_full c) := sortedKeys_evict hs
  unfold ReplyCache.file_pending
  cases hlast : (ReplyCache.evict_if_full c).entries.getLast? with
  | none =>
      simp only [hlast]
      exact sortedKeys_file_pending_slow hev
  | some back =>
      simp only [hlast]
      by_cases hb : back.1 ≤ source
      · rw [if_pos hb]
        unfold SortedKeys ReplyCache.keys at *
        simp only [List.map_append, List.map_cons, List.map_nil]
        rw [List.pairwise_append]
        refine ⟨hev, List.pairwise_singleton _ _, ?_⟩
        intro a ha b hb2
        rcases List.mem_singleton.mp hb2 with rfl
        have hlastkey :
            ((ReplyCache.evict_if_full c).entries.map Prod.fst).getLast?
              = some back.1 := by
          rw [List.getLast?_map, hlast]
          rfl
        exact Nat.le_trans (sorted_le_getLast hev hlastkey a ha) hb
      · rw [if_neg hb]
        exact sortedKeys_file_pending_slow hev

/-- The fallthrough of a completion keeps the key column ascending. -/
theorem sortedKeys_insert_fallthrough {V : Type} {c c2 : ReplyCache V}
    {t : InsertToken} {reply : V} (hs : SortedKeys c)
    (h : ReplyCache.insert_fallthrough c t reply = some c2) :
    SortedKeys c2 := by
  unfold ReplyCache.insert_fallthrough at h
  cases hres : ReplyCache.search c t.source with
  | ok i =>
      rw [hres] at h
      simp only at h
      split at h
      · cases h
        obtain ⟨hlen, hkey⟩ := search_ok_spec hres
        unfold SortedKeys ReplyCache.keys at *
        simp only [List.map_set]
        rw [← hkey, set_getD_self 0]
        · exact hs
        · simpa using hlen
      · cases h
  | error i =>
      rw [hres] at h
      simp only at h
      split at h
      · cases h
        rename_i hlen
        obtain ⟨hi, hlo, hhi⟩ := search_error_spec hs hres
        unfold SortedKeys ReplyCache.keys at *
        simp only [List.map_set]
        refine pairwise_le_set hs ?_ ?_ ?_
        · simpa using hlen
        · intro j hj hj2
          exact hlo j hj
        · intro j hj hj2
          refine hhi j hj ?_
          simpa using hj2
      · cases h

/-- A successful completion keeps the key column ascending. -/
theorem sortedKeys_insert {V : Type} {c c2 : ReplyCache V} {t : InsertToken}
    {reply : V} (hs : SortedKeys c)
    (h : ReplyCache.insert c t reply = some c2) : SortedKeys c2 := by
  unfold ReplyCache.insert at h
  cases hget : c.entries[t.idx]? with
  | some kv =>
      rw [hget] at h
      dsimp only at h
      by_cases hkv : kv.1 = t.source
      · rw [if_pos hkv] at h
        cases h
        obtain ⟨hlen, hkey⟩ := List.getElem?_eq_some_iff.mp hget
        unfold SortedKeys ReplyCache.keys at *
        simp only [List.map_set]
        have hgd : (c.entries.map Prod.fst).getD t.idx 0 = t.source := by
          rw [getD_eq_getElem_of_lt (by simpa using hlen)]
          simp only [List.getElem_map]
          rw [hkey, hkv]
        rw [← hgd, set_getD_self 0]
        · exact hs
        · simpa using hlen
      · rw [if_neg hkv] at h
        exact sortedKeys_insert_fallthrough hs h
  | none =>
      rw [hget] at h
      exact sortedKeys_insert_fallthrough hs h

/-- A reopen keeps the key column ascending. -/
theorem sortedKeys_take_entry {V : Type} {c : ReplyCache V} {source : Nat}
    (hs : SortedKeys c) :
    SortedKeys (ReplyCache.take_entry c source).2 := by
  unfold ReplyCache.take_entry
  cases hres : ReplyCache.search c source with
  | ok i =>
      obtain ⟨hlen, hkey⟩ := search_ok_spec hres
      unfold SortedKeys ReplyCache.keys at *
      simp only [List.map_set]
      rw [← hkey, set_getD_self 0]
      · exact hs
      · simpa using hlen
  | error i => exact hs

/-- Eviction keeps the capacity. -/
theorem cap_evict {V : Type} (c : ReplyCache V) :
    (ReplyCache.evict_if_full c).cap = c.cap := by
  unfold ReplyCache.evict_if_full
  split <;> rfl

/-- The slow reservation path keeps the capacity. -/
theorem cap_file_pending_slow {V : Type} (c : ReplyCache V) (source : Nat) :
    (ReplyCache.file_pending_slow c source).2.cap = c.cap := by
  unfold ReplyCache.file_pending_slow
  cases ReplyCache.search c source <;> rfl

/-- A reservation keeps the capacity. -/
theorem cap_file_pending {V : Type} (c : ReplyCache V) (source : Nat) :
    (ReplyCache.file_pending c source).2.cap = c.cap := by
  unfold ReplyCache.file_pending
  cases hlast : (ReplyCache.evict_if_full c).entries.getLast? with
  | none =>
      simp only [hlast]
      rw [cap_file_pending_slow, cap_evict]
  | some back =>
      simp only [hlast]
      by_cases hb : back.1 ≤ source
      · rw [if_pos hb]
        exact cap_evict c
      · rw [if_neg hb]
        rw [cap_file_pending_slow, cap_evict]

/-- The completion fallthrough keeps the capacity and the store length. -/
theorem cap_length_insert_fallthrough {V : Type} {c c2 : ReplyCache V}
    {t : InsertToken} {reply : V}
    (h : ReplyCache.insert_fallthrough c t reply = some c2) :
    c2.cap = c.cap ∧ c2.entries.length = c.entries.length := by
  unfold ReplyCache.insert_fallthrough at h
  cases hres : ReplyCache.search c t.source with
  | ok i =>
      rw [hres] at h
      dsimp only at h
      split at h
      · cases h
        simp
      · cases h
  | error i =>
      rw [hres] at h
      dsimp only at h
      split at h
      · cases h
        simp
      · cases h

/-- A successful completion keeps the capacity and the store length. -/
theorem cap_length_insert {V : Type} {c c2 : ReplyCache V} {t : InsertToken}
    {reply : V} (h : ReplyCache.insert c t reply = some c2) :
    c2.cap = c.cap ∧ c2.entries.length = c.entries.length := by
  unfold ReplyCache.insert at h
  cases hget : c.entries[t.idx]? with
  | some kv =>
      rw [hget] at h
      dsimp only at h
      split at h
      · cases h
        simp
      · exact cap_length_insert_fallthrough h
  | none =>
      rw [hget] at h
      exact cap_length_insert_fallthrough h

/-- A reopen keeps the capacity and the store length. -/
theorem cap_length_take_entry {V : Type} (c : ReplyCache V) (source : Nat) :
    (ReplyCache.take_entry c source).2.cap = c.cap ∧
      (ReplyCache.take_entry c source).2.entries.length
        = c.entries.length := by
  unfold ReplyCache.take_entry
  cases ReplyCache.search c source with
  | ok i => simp
  | error i => simp

/-- After the eviction step of a reservation there is room for one more
entry, provided the capacity is positive and the store was within bounds. -/
theorem length_evict_succ_le {V : Type} (c : ReplyCache V) (hcap : 1 ≤ c.cap)
    (hlen : c.entries.length ≤ c.cap) :
    (ReplyCache.evict_if_full c).entries.length + 1 ≤ c.cap := by
  unfold ReplyCache.evict_if_full
  split
  · rename_i hb
    have heq : c.entries.length = c.cap := by simpa using hb
    simp only [List.length_tail]
    omega
  · rename_i hb
    have hne : ¬ c.entries.length = c.cap := by simpa using hb
    omega

/-- The slow reservation path grows the store by at most one. -/
theorem length_file_pending_slow {V : Type} (c : ReplyCache V) (source : Nat) :
    (ReplyCache.file_pending_slow c source).2.entries.length
      ≤ c.entries.length + 1 := by
  unfold ReplyCache.file_pending_slow
  cases hres : ReplyCache.search c source with
  | ok i => simp
  | error i =>
      have hle := search_error_le hres
      simp only
      rw [List.length_insertIdx i _ (by simpa using hle)]

/-- A reservation grows the evicted store by at most one. -/
theorem length_file_pending {V : Type} (c : ReplyCache V) (source : Nat) :
    (ReplyCache.file_pending c source).2.entries.length
      ≤ (ReplyCache.evict_if_full c).entries.length + 1 := by
  unfold ReplyCache.file_pending
  cases hlast : (ReplyCache.evict_if_full c).entries.getLast? with
  | none =>
      simp only [hlast]
      exact length_file_pending_slow _ _
  | some back =>
      simp only [hlast]
      by_cases hb : back.1 ≤ source
      · rw [if_pos hb]
        simp
      · rw [if_neg hb]
        exact length_file_pending_slow _ _

/-- Looking up a key absent from the store yields nothing. -/
theorem get_entry_none_of_not_mem {V : Type} {c : ReplyCache V} {k : Nat}
    (h : k ∉ ReplyCache.keys c) : ReplyCache.get_entry c k = none := by
  obtain ⟨i, hres⟩ := search_not_mem h
  unfold ReplyCache.get_entry
  rw [hres]

/-- Reopening a key absent from the store yields nothing and changes
nothing. -/
theorem take_entry_none_of_not_mem {V : Type} {c : ReplyCache V} {k : Nat}
    (h : k ∉ ReplyCache.keys c) :
    ReplyCache.take_entry c k = (none, c) := by
  obtain ⟨i, hres⟩ := search_not_mem h
  unfold ReplyCache.take_entry
  rw [hres]

/-- The slow reservation path never introduces a key other than the reserved
one. -/
theorem keys_not_mem_file_pending_slow {V : Type} {c : ReplyCache V}
    {k x : Nat} (hx : x ∉ ReplyCache.keys c) (hxk : x ≠ k) :
    x ∉ ReplyCache.keys (ReplyCache.file_pending_slow c k).2 := by
  unfold ReplyCache.file_pending_slow
  cases hres : ReplyCache.search c k with
  | ok i => exact hx
  | error i =>
      have hle := search_error_le hres
      unfold ReplyCache.keys at *
      simp only [map_insertIdx]
      intro hmem
      rcases (List.mem_insertIdx (by simpa using hle)).mp hmem with rfl | hmem2
      · exact hxk rfl
      · exact hx hmem2

/-- C3 amended: at every observation point of any operation sequence from an
empty cache, the key column of the store is ascending in the non-strict sense
(`entries[i].key ≤ entries[i+1].key`).  Strict ascent — no duplicate keys —
fails (see the counterexample): reserving a key equal to the current maximum
appends a duplicate, so equal adjacent keys must be allowed. -/
theorem c3_sorted_invariant {V : Type} (c : ReplyCache V) (h : Reach c) :
    SortedKeys c := by
  induction h with
  | init cap =>
      simp [SortedKeys, ReplyCache.keys, ReplyCache.with_capacity]
  | file c source hr ih => exact sortedKeys_file_pending ih
  | complete c c2 t reply hr hins ih => exact sortedKeys_insert ih hins
  | reopen c source hr ih => exact sortedKeys_take_entry ih

/-- Witness for C3: the invariant evaluated on the concrete reachable state
after reserving key 1 in an empty cache of capacity 4. -/
theorem c3_sorted_invariant_witness :
    SortedKeys (ReplyCache.file_pending
      (ReplyCache.with_capacity (V := Nat) 4) 1).2 :=
  c3_sorted_invariant _ (Reach.file _ 1 (Reach.init 4))

/-- Every state reachable with a positive capacity keeps the store length
within the capacity. -/
theorem reach_length_le {V : Type} (c : ReplyCache V) (h : Reach c)
    (hcap : 1 ≤ c.cap) : c.entries.length ≤ c.cap := by
  induction h with
  | init cap => simp [ReplyCache.with_capacity]
  | file c source hr ih =>
      rw [cap_file_pending c source] at hcap ⊢
      have h1 := length_file_pending c source
      have h2 := length_evict_succ_le c hcap (ih hcap)
      omega
  | complete c c2 t reply hr hins ih =>
      obtain ⟨hc, hl⟩ := cap_length_insert hins
      rw [hc] at hcap ⊢
      rw [hl]
      exact ih hcap
  | reopen c source hr ih =>
      obtain ⟨hc, hl⟩ := cap_length_take_entry c source
      rw [hc] at hcap ⊢
      rw [hl]
      exact ih hcap

/-- An in-bounds `getD` of the key column is a member of it. -/
theorem getD_mem_of_lt {l : List Nat} {j : Nat} (h : j < l.length) :
    l.getD j 0 ∈ l := by
  rw [getD_eq_getElem_of_lt h]
  exact List.getElem_mem h

/-- C5 amended: with a positive capacity the claim holds.  First conjunct:
on every reachable state of a cache whose capacity is at least 1, the store
length never exceeds the capacity (capacity 0 is the counterexample: the
first reservation makes the length 1).  Second conjunct: when a full,
strictly sorted store reserves a fresh key, the entry with the smallest key —
the front — is evicted and its key is no longer retrievable by `get_entry`
(on stores with duplicated keys, which only the duplicate-append slip can
produce, the evicted front key can survive in its duplicate; strict
sortedness excludes those corrupted states). -/
theorem c5_capacity_invariant :
    (∀ (V : Type) (c : ReplyCache V), Reach c → 1 ≤ c.cap →
      c.entries.length ≤ c.cap) ∧
    (∀ (V : Type) (c : ReplyCache V) (k k0 : Nat) (e0 : CacheEntry V),
      1 ≤ c.cap → StrictSortedKeys c → c.entries.length = c.cap →
      k ∉ ReplyCache.keys c → c.entries.head? = some (k0, e0) →
      ReplyCache.get_entry (ReplyCache.file_pending c k).2 k0 = none) := by
  constructor
  · intro V c h hcap
    exact reach_length_le c h hcap
  · intro V c k k0 e0 hcap hstrict hfull hk hhead
    have hsorted : SortedKeys c := hstrict.imp Nat.le_of_lt
    -- the store is nonempty and starts with (k0, e0)
    obtain ⟨a, l, hc⟩ : ∃ a l, c.entries = a :: l := by
      cases hcl : c.entries with
      | nil => rw [hcl] at hhead; cases hhead
      | cons a l => exact ⟨a, l, rfl⟩
    have ha : a = (k0, e0) := by
      rw [hc] at hhead
      simpa using hhead
    have hk0head : (ReplyCache.keys c).getD 0 0 = k0 := by
      unfold ReplyCache.keys
      rw [hc, ha]
      rfl
    have hlen0 : 0 < c.entries.length := by
      rw [hc]
      simp
    have hk0mem : k0 ∈ ReplyCache.keys c := by
      rw [← hk0head]
      refine getD_mem_of_lt ?_
      rw [keys_length]
      exact hlen0
    have hkne : k0 ≠ k := by
      intro he
      exact hk (he ▸ hk0mem)
    -- the evicted front key is not among the remaining keys
    have hk0tail : k0 ∉ (ReplyCache.keys c).tail := by
      intro hmem
      obtain ⟨j, hj, hjeq⟩ := List.mem_iff_getElem.mp hmem
      rw [List.getElem_tail] at hjeq
      have hjlen : j + 1 < (ReplyCache.keys c).length := by
        simp only [List.length_tail] at hj
        omega
      have hmono := strict_sorted_getD_mono hstrict (Nat.succ_pos j) hjlen
      rw [hk0head, getD_eq_getElem_of_lt hjlen, hjeq] at hmono
      exact Nat.lt_irrefl k0 hmono
    have hktail : k ∉ (ReplyCache.keys c).tail := fun hmem =>
      hk (List.mem_of_mem_tail hmem)
    -- the eviction fires
    have hc1 : ReplyCache.evict_if_full c = ⟨c.cap, c.entries.tail⟩ := by
      unfold ReplyCache.evict_if_full
      rw [if_pos (by simpa using hfull)]
    have hkeystail :
        ReplyCache.keys (⟨c.cap, c.entries.tail⟩ : ReplyCache V)
          = (ReplyCache.keys c).tail := by
      unfold ReplyCache.keys
      simp [List.map_tail]
    refine get_entry_none_of_not_mem ?_
    unfold ReplyCache.file_pending
    rw [hc1]
    cases hlast :
        (⟨c.cap, c.entries.tail⟩ : ReplyCache V).entries.getLast? with
    | none =>
        simp only [hlast]
        refine keys_not_mem_file_pending_slow ?_ hkne
        rw [hkeystail]
        exact hk0tail
    | some back =>
        simp only [hlast]
        by_cases hb : back.1 ≤ k
        · rw [if_pos hb]
          unfold ReplyCache.keys
          simp only [List.map_append, List.map_cons, List.map_nil]
          intro hmem
          rcases List.mem_append.mp hmem with hmem2 | hmem2
          · refine hk0tail ?_
            have : (⟨c.cap, c.entries.tail⟩ : ReplyCache V).entries.map
                Prod.fst = (ReplyCache.keys c).tail := hkeystail
            rw [this] at hmem2
            exact hmem2
          · exact hkne (by simpa using hmem2)
        · rw [if_neg hb]
          refine keys_not_mem_file_pending_slow ?_ hkne
          rw [hkeystail]
          exact hk0tail

/-- Witness for C5: the first conjunct applied to the reachable state after
one reservation in an empty capacity-2 cache; the second conjunct applied to
the full strictly sorted capacity-2 store holding keys 1 and 2 when the
fresh key 3 is reserved. -/
theorem c5_capacity_invariant_witness :
    (ReplyCache.file_pending
        (ReplyCache.with_capacity (V := Nat) 2) 1).2.entries.length
      ≤ (ReplyCache.file_pending
        (ReplyCache.with_capacity (V := Nat) 2) 1).2.cap ∧
    ReplyCache.get_entry
        (ReplyCache.file_pending
          (⟨2, [(1, CacheEntry.Pending), (2, CacheEntry.Pending)]⟩ :
            ReplyCache Nat) 3).2 1
      = none := by
  constructor
  · refine c5_capacity_invariant.1 Nat _ (Reach.file _ 1 (Reach.init 2)) ?_
    rw [cap_file_pending]
    decide
  · refine c5_capacity_invariant.2 Nat
      (⟨2, [(1, CacheEntry.Pending), (2, CacheEntry.Pending)]⟩ :
        ReplyCache Nat) 3 1 CacheEntry.Pending (by decide) ?_ rfl ?_ rfl
    · unfold StrictSortedKeys ReplyCache.keys
      decide
    · unfold ReplyCache.keys
      decide

/-- C6: reopen round-trip.  First conjunct: if a key currently reads as
`Filled v` then `take_entry` returns `Filled v` and resets the entry in
place, so a subsequent lookup reports `Pending` (reserved), not filled.
Second conjunct: reopening a key absent from the store returns nothing and
leaves the cache unchanged. -/
theorem c6_reopen_round_trip :
    (∀ (V : Type) (c : ReplyCache V) (k : Nat) (v : V),
      ReplyCache.get_entry c k = some (CacheEntry.Filled v) →
      (ReplyCache.take_entry c k).1 = some (CacheEntry.Filled v) ∧
      ReplyCache.get_entry (ReplyCache.take_entry c k).2 k
        = some CacheEntry.Pending) ∧
    (∀ (V : Type) (c : ReplyCache V) (k : Nat),
      k ∉ ReplyCache.keys c → ReplyCache.take_entry c k = (none, c)) := by
  constructor
  · intro V c k v h
    unfold ReplyCache.get_entry at h
    cases hres : ReplyCache.search c k with
    | error i =>
        rw [hres] at h
        cases h
    | ok i =>
        rw [hres] at h
        obtain ⟨hlen, hkey⟩ := search_ok_spec hres
        have htake : ReplyCache.take_entry c k
            = ((c.entries[i]?).map Prod.snd,
                ⟨c.cap, c.entries.set i (k, CacheEntry.Pending)⟩) := by
          unfold ReplyCache.take_entry
          rw [hres]
        constructor
        · rw [htake]
          exact h
        · rw [htake]
          have hkeys : ReplyCache.keys
              (⟨c.cap, c.entries.set i (k, CacheEntry.Pending)⟩ :
                ReplyCache V) = ReplyCache.keys c := by
            unfold ReplyCache.keys
            simp only [List.map_set]
            rw [← hkey]
            exact set_getD_self 0 _ i (by simpa using hlen)
          have hsearch2 : ReplyCache.search
              (⟨c.cap, c.entries.set i (k, CacheEntry.Pending)⟩ :
                ReplyCache V) k = Except.ok i := by
            unfold ReplyCache.search
            rw [hkeys]
            exact hres
          unfold ReplyCache.get_entry
          rw [hsearch2]
          simp only
          rw [List.getElem?_set_self (by simpa using hlen)]
          rfl
  · intro V c k h
    exact take_entry_none_of_not_mem h

/-- Witness for C6: both conjuncts on concrete stores — reopening the filled
key 1 returns `Filled 11` and leaves it reading `Pending`, and reopening the
absent key 5 returns nothing and changes nothing. -/
theorem c6_reopen_round_trip_witness :
    ((ReplyCache.take_entry
        (⟨4, [(1, CacheEntry.Filled 11)]⟩ : ReplyCache Nat) 1).1
      = some (CacheEntry.Filled 11) ∧
     ReplyCache.get_entry
        (ReplyCache.take_entry
          (⟨4, [(1, CacheEntry.Filled 11)]⟩ : ReplyCache Nat) 1).2 1
      = some CacheEntry.Pending) ∧
    ReplyCache.take_entry (⟨4, [(2, CacheEntry.Pending)]⟩ : ReplyCache Nat) 5
      = (none, ⟨4, [(2, CacheEntry.Pending)]⟩) := by
  constructor
  · refine c6_reopen_round_trip.1 Nat
      (⟨4, [(1, CacheEntry.Filled 11)]⟩ : ReplyCache Nat) 1 11 ?_
    simp [ReplyCache.get_entry, ReplyCache.search, ReplyCache.keys, bsLoop]
  · refine c6_reopen_round_trip.2 Nat
      (⟨4, [(2, CacheEntry.Pending)]⟩ : ReplyCache Nat) 5 ?_
    unfold ReplyCache.keys
    decide

/-- C10 amended: the full store must contain the key at an interior
position — neither the front nor the back.  Then the reservation indeed
returns nothing while still evicting the front entry (non-atomic failure).
When the key sits at the front, the eviction removes the key itself and the
reservation succeeds (see the counterexample), so the front must be
excluded. -/
theorem c10_interior_reservation {V : Type} (c : ReplyCache V) (i k : Nat)
    (hstrict : StrictSortedKeys c) (hfull : c.entries.length = c.cap)
    (hi0 : 0 < i) (hilen : i + 1 < c.entries.length)
    (hk : (ReplyCache.keys c).getD i 0 = k) :
    ReplyCache.file_pending c k = (none, ⟨c.cap, c.entries.tail⟩) := by
  have hsorted : SortedKeys c := hstrict.imp Nat.le_of_lt
  have hc1 : ReplyCache.evict_if_full c = ⟨c.cap, c.entries.tail⟩ := by
    unfold ReplyCache.evict_if_full
    rw [if_pos (by simpa using hfull)]
  have hkeystail : ReplyCache.keys (⟨c.cap, c.entries.tail⟩ : ReplyCache V)
      = (ReplyCache.keys c).tail := by
    unfold ReplyCache.keys
    simp [List.map_tail]
  have hsortedtail : SortedKeys (⟨c.cap, c.entries.tail⟩ : ReplyCache V) := by
    unfold SortedKeys
    rw [hkeystail]
    exact hsorted.sublist (List.tail_sublist _)
  have hkmemtail : k ∈ (ReplyCache.keys c).tail := by
    have hlt : i - 1 < (ReplyCache.keys c).tail.length := by
      simp only [List.length_tail, keys_length]
      omega
    have hgd : (ReplyCache.keys c).tail.getD (i - 1) 0 = k := by
      rw [getD_eq_getElem_of_lt hlt, List.getElem_tail]
      have hi1 : i - 1 + 1 = i := by omega
      have hvalid : i - 1 + 1 < (ReplyCache.keys c).length := by
        rw [keys_length]
        omega
      rw [← getD_eq_getElem_of_lt hvalid, hi1]
      exact hk
    rw [← hgd]
    exact getD_mem_of_lt hlt
  unfold ReplyCache.file_pending
  rw [hc1]
  cases hlast :
      (⟨c.cap, c.entries.tail⟩ : ReplyCache V).entries.getLast? with
  | none =>
      exfalso
      have hnil := List.getLast?_eq_none_iff.mp hlast
      have : c.entries.tail.length = 0 := by
        rw [show c.entries.tail = [] from hnil]
        rfl
      simp only [List.length_tail] at this
      omega
  | some back =>
      have hks : ((ReplyCache.keys c).tail).getLast? = some back.1 := by
        rw [← hkeystail]
        unfold ReplyCache.keys
        rw [List.getLast?_map]
        rw [show (⟨c.cap, c.entries.tail⟩ : ReplyCache V).entries.getLast?
          = some back from hlast]
        rfl
      have hbk : k < back.1 := by
        rw [List.getLast?_eq_getElem?] at hks
        obtain ⟨hblen, hbeq⟩ := List.getElem?_eq_some_iff.mp hks
        rw [List.getElem_tail] at hbeq
        have hvalid : (ReplyCache.keys c).tail.length - 1 + 1
            < (ReplyCache.keys c).length := by
          simp only [List.length_tail, keys_length]
          omega
        have hmono := strict_sorted_getD_mono hstrict
          (show i < (ReplyCache.keys c).tail.length - 1 + 1 by
            simp only [List.length_tail, keys_length]
            omega)
          hvalid
        rw [hk, getD_eq_getElem_of_lt hvalid, hbeq] at hmono
        exact hmono
      simp only [hlast]
      rw [if_neg (by omega)]
      obtain ⟨j, hok⟩ := search_found hsortedtail
        (by rw [hkeystail]; exact hkmemtail)
      unfold ReplyCache.file_pending_slow
      rw [hok]

/-- Witness for C10: the full strictly sorted capacity-3 store holding keys
1, 2, 3 with key 2 at the interior position 1: reserving 2 returns nothing
and evicts the front entry for key 1. -/
theorem c10_interior_reservation_witness :
    ReplyCache.file_pending
        (⟨3, [(1, CacheEntry.Pending), (2, CacheEntry.Pending),
              (3, CacheEntry.Pending)]⟩ : ReplyCache Nat) 2
      = (none,
          ⟨3, [(2, CacheEntry.Pending), (3, CacheEntry.Pending)]⟩) := by
  refine c10_interior_reservation
    (⟨3, [(1, CacheEntry.Pending), (2, CacheEntry.Pending),
          (3, CacheEntry.Pending)]⟩ : ReplyCache Nat) 1 2 ?_ rfl
    (by decide) (by decide) ?_
  · unfold StrictSortedKeys ReplyCache.keys
    decide
  · unfold ReplyCache.keys
    decide

/-- C1: reserving a key that is already present is claimed to always return
nothing.  Evaluating the code refutes this: after `file_pending 2` on an
empty cache of capacity 4, a second `file_pending 2` hits the fast path
(`back_source <= source` holds with equality), appends a duplicate
`(2, Pending)` entry and returns a token — contradicting the claim and the
doc comment of `file_pending` itself. -/
theorem c1_duplicate_reservation_refutation :
    ReplyCache.file_pending (ReplyCache.with_capacity (V := Nat) 4) 2
      = (some ⟨2, 0⟩, ⟨4, [(2, CacheEntry.Pending)]⟩) ∧
    ReplyCache.file_pending (⟨4, [(2, CacheEntry.Pending)]⟩ : ReplyCache Nat) 2
      = (some ⟨2, 1⟩,
          ⟨4, [(2, CacheEntry.Pending), (2, CacheEntry.Pending)]⟩) := by
  constructor <;>
    simp [ReplyCache.file_pending, ReplyCache.evict_if_full,
      ReplyCache.file_pending_slow, ReplyCache.search, ReplyCache.keys,
      ReplyCache.with_capacity, bsLoop]

/-- C2: redeeming a token whose key was evicted is claimed to leave every
entry unchanged and raise no error.  Evaluating the code refutes this.  On a
capacity-2 cache: reserve 1, reserve 2, then reserve 3 (which evicts key 1);
redeeming the stale token for key 1 overwrites the entry `(2, Pending)` at
the binary-search insertion point with `(1, Filled 11)`, so key 2 is
destroyed.  On a capacity-1 cache the insertion point equals the store
length and `self.0[idx] = ...` panics (modelled as `none`). -/
theorem c2_stale_token_refutation :
    ReplyCache.file_pending (ReplyCache.with_capacity (V := Nat) 2) 1
      = (some ⟨1, 0⟩, ⟨2, [(1, CacheEntry.Pending)]⟩) ∧
    ReplyCache.file_pending (⟨2, [(1, CacheEntry.Pending)]⟩ : ReplyCache Nat) 2
      = (some ⟨2, 1⟩,
          ⟨2, [(1, CacheEntry.Pending), (2, CacheEntry.Pending)]⟩) ∧
    ReplyCache.file_pending
        (⟨2, [(1, CacheEntry.Pending), (2, CacheEntry.Pending)]⟩ :
          ReplyCache Nat) 3
      = (some ⟨3, 1⟩,
          ⟨2, [(2, CacheEntry.Pending), (3, CacheEntry.Pending)]⟩) ∧
    ReplyCache.insert
        (⟨2, [(2, CacheEntry.Pending), (3, CacheEntry.Pending)]⟩ :
          ReplyCache Nat) ⟨1, 0⟩ 11
      = some ⟨2, [(1, CacheEntry.Filled 11), (3, CacheEntry.Pending)]⟩ ∧
    ReplyCache.get_entry
        (⟨2, [(1, CacheEntry.Filled 11), (3, CacheEntry.Pending)]⟩ :
          ReplyCache Nat) 2
      = none ∧
    ReplyCache.insert
        (⟨1, [(3, CacheEntry.Pending)]⟩ : ReplyCache Nat) ⟨5, 0⟩ 99
      = none := by
  refine ⟨?_, ?_, ?_, ?_, ?_, ?_⟩ <;>
    simp [ReplyCache.file_pending, ReplyCache.evict_if_full,
      ReplyCache.file_pending_slow, ReplyCache.insert,
      ReplyCache.insert_fallthrough, ReplyCache.get_entry,
      ReplyCache.search, ReplyCache.keys, ReplyCache.with_capacity, bsLoop]

/-- C3 counterexample: from an empty cache of capacity 4, reserving key 2
twice in a row is a sequence of `reserve` calls after which the store is
`[(2, Pending), (2, Pending)]`, whose key column is not strictly ascending:
the claimed order invariant (strictly ascending, no duplicate keys) fails. -/
theorem c3_counterexample :
    ReplyCache.file_pending
        ((ReplyCache.file_pending (ReplyCache.with_capacity (V := Nat) 4) 2).2)
        2
      = (some ⟨2, 1⟩,
          ⟨4, [(2, CacheEntry.Pending), (2, CacheEntry.Pending)]⟩) ∧
    ¬ StrictSortedKeys
        (⟨4, [(2, CacheEntry.Pending), (2, CacheEntry.Pending)]⟩ :
          ReplyCache Nat) := by
  constructor
  · simp [ReplyCache.file_pending, ReplyCache.evict_if_full,
      ReplyCache.file_pending_slow, ReplyCache.search, ReplyCache.keys,
      ReplyCache.with_capacity, bsLoop]
  · simp [StrictSortedKeys, ReplyCache.keys, List.pairwise_cons]

/-- C4: the stale-index fallback of `insert`.  From an empty cache of
capacity 4: reserve 1 and complete it with 11, reserve 2 and complete it
with 12, then reserve 4 (token `ta` at index 2), reserve 3 (token `tb`,
also index 2, shifting the slot of key 4), complete `tb` with 13 and `ta`
with 14: both land on the right keys (the second via the fallback binary
search), and lookups of 3 and 4 give `Filled 13` and `Filled 14`. -/
theorem c4_stale_index_fallback_scenario :
    ReplyCache.file_pending (ReplyCache.with_capacity (V := Nat) 4) 1
      = (some ⟨1, 0⟩, ⟨4, [(1, CacheEntry.Pending)]⟩) ∧
    ReplyCache.insert (⟨4, [(1, CacheEntry.Pending)]⟩ : ReplyCache Nat)
        ⟨1, 0⟩ 11
      = some ⟨4, [(1, CacheEntry.Filled 11)]⟩ ∧
    ReplyCache.file_pending
        (⟨4, [(1, CacheEntry.Filled 11)]⟩ : ReplyCache Nat) 2
      = (some ⟨2, 1⟩,
          ⟨4, [(1, CacheEntry.Filled 11), (2, CacheEntry.Pending)]⟩) ∧
    ReplyCache.insert
        (⟨4, [(1, CacheEntry.Filled 11), (2, CacheEntry.Pending)]⟩ :
          ReplyCache Nat) ⟨2, 1⟩ 12
      = some ⟨4, [(1, CacheEntry.Filled 11), (2, CacheEntry.Filled 12)]⟩ ∧
    ReplyCache.file_pending
        (⟨4, [(1, CacheEntry.Filled 11), (2, CacheEntry.Filled 12)]⟩ :
          ReplyCache Nat) 4
      = (some ⟨4, 2⟩,
          ⟨4, [(1, CacheEntry.Filled 11), (2, CacheEntry.Filled 12),
               (4, CacheEntry.Pending)]⟩) ∧
    ReplyCache.file_pending
        (⟨4, [(1, CacheEntry.Filled 11), (2, CacheEntry.Filled 12),
              (4, CacheEntry.Pending)]⟩ : ReplyCache Nat) 3
      = (some ⟨3, 2⟩,
          ⟨4, [(1, CacheEntry.Filled 11), (2, CacheEntry.Filled 12),
               (3, CacheEntry.Pending), (4, CacheEntry.Pending)]⟩) ∧
    ReplyCache.insert
        (⟨4, [(1, CacheEntry.Filled 11), (2, CacheEntry.Filled 12),
              (3, CacheEntry.Pending), (4, CacheEntry.Pending)]⟩ :
          ReplyCache Nat) ⟨3, 2⟩ 13
      = some ⟨4, [(1, CacheEntry.Filled 11), (2, CacheEntry.Filled 12),
                  (3, CacheEntry.Filled 13), (4, CacheEntry.Pending)]⟩ ∧
    ReplyCache.insert
        (⟨4, [(1, CacheEntry.Filled 11), (2, CacheEntry.Filled 12),
              (3, CacheEntry.Filled 13), (4, CacheEntry.Pending)]⟩ :
          ReplyCache Nat) ⟨4, 2⟩ 14
      = some ⟨4, [(1, CacheEntry.Filled 11), (2, CacheEntry.Filled 12),
                  (3, CacheEntry.Filled 13), (4, CacheEntry.Filled 14)]⟩ ∧
    ReplyCache.get_entry
        (⟨4, [(1, CacheEntry.Filled 11), (2, CacheEntry.Filled 12),
              (3, CacheEntry.Filled 13), (4, CacheEntry.Filled 14)]⟩ :
          ReplyCache Nat) 3
      = some (CacheEntry.Filled 13) ∧
    ReplyCache.get_entry
        (⟨4, [(1, CacheEntry.Filled 11), (2, CacheEntry.Filled 12),
              (3, CacheEntry.Filled 13), (4, CacheEntry.Filled 14)]⟩ :
          ReplyCache Nat) 4
      = some (CacheEntry.Filled 14) := by
  refine ⟨?_, ?_, ?_, ?_, ?_, ?_, ?_, ?_, ?_, ?_⟩ <;>
    simp [ReplyCache.file_pending, ReplyCache.evict_if_full,
      ReplyCache.file_pending_slow, ReplyCache.insert,
      ReplyCache.insert_fallthrough, ReplyCache.get_entry,
      ReplyCache.search, ReplyCache.keys, ReplyCache.with_capacity, bsLoop]

/-- C5 counterexample.  First conjunct: with capacity 0, one reservation
makes the store length 1, exceeding the configured capacity.  Remaining
conjuncts: on a capacity-2 cache, reserving key 2 twice fills the store with
two entries keyed 2; reserving the new distinct key 1 then evicts the
smallest-key entry, yet `get_entry 2` still succeeds afterwards, so the
smallest-key entry present before the reservation is still retrievable. -/
theorem c5_counterexample :
    (ReplyCache.file_pending (ReplyCache.with_capacity (V := Nat) 0) 1).2.entries.length
      = 1 ∧
    ReplyCache.file_pending (ReplyCache.with_capacity (V := Nat) 2) 2
      = (some ⟨2, 0⟩, ⟨2, [(2, CacheEntry.Pending)]⟩) ∧
    ReplyCache.file_pending (⟨2, [(2, CacheEntry.Pending)]⟩ : ReplyCache Nat) 2
      = (some ⟨2, 1⟩,
          ⟨2, [(2, CacheEntry.Pending), (2, CacheEntry.Pending)]⟩) ∧
    ReplyCache.file_pending
        (⟨2, [(2, CacheEntry.Pending), (2, CacheEntry.Pending)]⟩ :
          ReplyCache Nat) 1
      = (some ⟨1, 0⟩,
          ⟨2, [(1, CacheEntry.Pending), (2, CacheEntry.Pending)]⟩) ∧
    ReplyCache.get_entry
        (⟨2, [(1, CacheEntry.Pending), (2, CacheEntry.Pending)]⟩ :
          ReplyCache Nat) 2
      = some CacheEntry.Pending := by
  refine ⟨?_, ?_, ?_, ?_, ?_⟩ <;>
    simp [ReplyCache.file_pending, ReplyCache.evict_if_full,
      ReplyCache.file_pending_slow, ReplyCache.get_entry,
      ReplyCache.search, ReplyCache.keys, ReplyCache.with_capacity, bsLoop]

/-- C7: `check_repost` (the reverse value search of the seen cache) returns
exactly the number of currently `Filled` entries whose stored value equals
the needle; it is a pure function of the cache. -/
theorem c7_search_by_value_count (c : SeenCache) (v : String) :
    check_repost c v
      = c.entries.countP (fun e =>
          match e.2 with
          | CacheEntry.Filled w => w == v
          | CacheEntry.Pending => false) := by
  obtain ⟨cap, l⟩ := c
  unfold check_repost search_by_value
  induction l with
  | nil => rfl
  | cons e l ih =>
      obtain ⟨k, st⟩ := e
      cases st with
      | Pending => simpa [List.filterMap_cons, List.countP_cons] using ih
      | Filled w =>
          by_cases h : w = v <;>
            simpa [List.filterMap_cons, List.countP_cons, h] using ih

/-- C8: the claim says the link-rewriting pass returns replacement text when
at least one recognized link pattern occurs in the content.  `fix` from
src/fix.rs refutes it: its helper `tweet_paths` is literally the empty
iterator `[].into_iter()` for every input, so `fix` returns `none` for every
content — including the twitter links its own in-file `extract` test expects
`tweet_paths` to match. -/
theorem c8_fix_always_none (content link_regex : String) :
    fix content link_regex = none := rfl

/-- C10 counterexample: a full capacity-2 store containing key 1 at the
front — a position other than the back — is claimed to make `file_pending 1`
return nothing while still evicting.  Evaluating the code refutes this: the
eviction removes key 1 itself, the binary search then finds an open slot,
and the reservation succeeds with a token. -/
theorem c10_counterexample :
    ReplyCache.file_pending
        (⟨2, [(1, CacheEntry.Pending), (2, CacheEntry.Pending)]⟩ :
          ReplyCache Nat) 1
      = (some ⟨1, 0⟩,
          ⟨2, [(1, CacheEntry.Pending), (2, CacheEntry.Pending)]⟩) := by
  simp [ReplyCache.file_pending, ReplyCache.evict_if_full,
    ReplyCache.file_pending_slow, ReplyCache.search, ReplyCache.keys, bsLoop]

end Tweetboat
